import Mathlib

/-!
Verification of the AgoV3 client-side persistence layer and its derived-view
logic: a shallow embedding of the data model (`src/lib/types.ts`), the date
helpers (`src/lib/dateUtils.ts`), the stores (`src/lib/storage/*.ts`) and the
derived sorting/statistics computations, together with theorems settling the
specified invariants.

Conventions of the embedding:
* An IndexedDB object store is a list of records; keys (`id` fields) are
  unique in a real store, so "delete by key" / "put by key" are modelled as
  filtering / mapping on the `id` field.
* A `readwrite` transaction is a single pure state-to-state function, which
  models the all-or-nothing commit of IndexedDB transactions by construction.
* JavaScript numbers are modelled as `Int` (all quantities involved are
  integers well inside the exactly-representable double range); `Math.floor`
  division by a positive constant is `Int` division (`/` on `Int` rounds
  toward negative infinity for positive divisors).
* JavaScript string comparison (`<`, and the sign of `localeCompare` on the
  ASCII data handled here) is code-unit lexicographic comparison, embedded
  as `strCmp` below.
* A thrown exception is `Option.none`.
-/

/- ————————————————————————————————————————————————————————————————
   Data model: src/lib/types.ts
   ———————————————————————————————————————————————————————————————— -/

structure Category where
  id : String
  name : String
  sortOrder : Nat
  createdAt : String
  color : Option String
deriving DecidableEq

structure Item where
  id : String
  title : String
  categoryId : String
  createdAt : String
deriving DecidableEq

structure LogEntry where
  id : String
  itemId : String
  date : String
  note : Option String
  createdAt : String
deriving DecidableEq

structure UserPreferences where
  theme : String
  density : String
deriving DecidableEq

def DEFAULT_PREFERENCES : UserPreferences :=
  { theme := "system", density := "regular" }

def DEFAULT_CATEGORIES : List String :=
  ["Home", "Car", "Health", "Fitness", "Pets", "Tech", "Finance", "People", "Personal"]

def DEFAULT_CATEGORY_COLORS : List String :=
  ["#B91C1C", "#9A3412", "#92400E", "#78350F", "#365314", "#166534", "#065F46",
   "#134E4A", "#164E63", "#0C4A6E", "#1E40AF", "#3730A3", "#5B21B6", "#6B21A8",
   "#86198F", "#9F1239"]

/-- The four collections of the `ago-db` IndexedDB database (src/lib/storage/db.ts):
`categories`, `items`, `logs`, and the single-key `prefs` store (key `settings`). -/
structure DBState where
  categories : List Category
  items : List Item
  logs : List LogEntry
  prefs : Option UserPreferences
deriving DecidableEq

/- ————————————————————————————————————————————————————————————————
   String comparison (JavaScript code-unit order / localeCompare sign)
   ———————————————————————————————————————————————————————————————— -/

/-- Lexicographic three-way comparison of character lists, the order
JavaScript uses for `<` on strings and (on the plain ASCII data of this
application: digits, hyphens, titles) the sign of `localeCompare`. -/
def charListCmp : List Char → List Char → Int
  | [], [] => 0
  | [], _ :: _ => -1
  | _ :: _, [] => 1
  | a :: as, b :: bs =>
    if a < b then -1 else if b < a then 1 else charListCmp as bs

/-- Three-way string comparison; negative means the first argument is
smaller. Models the sign of `a.localeCompare(b)`. -/
def strCmp (s t : String) : Int := charListCmp s.toList t.toList

theorem charListCmp_self (l : List Char) : charListCmp l l = 0 := by
  induction l with
  | nil => rfl
  | cons a as ih => simp [charListCmp, ih]

theorem charListCmp_swap (a b : List Char) : charListCmp b a = -charListCmp a b := by
  induction a generalizing b with
  | nil => cases b <;> simp [charListCmp]
  | cons x xs ih =>
    cases b with
    | nil => simp [charListCmp]
    | cons y ys =>
      by_cases h1 : x < y
      · have h2 : ¬ y < x := lt_asymm h1
        simp [charListCmp, h1, h2]
      · by_cases h2 : y < x
        · simp [charListCmp, h1, h2]
        · simp [charListCmp, h1, h2, ih]

theorem charListCmp_trans {a b c : List Char}
    (hab : charListCmp a b ≤ 0) (hbc : charListCmp b c ≤ 0) :
    charListCmp a c ≤ 0 := by
  induction a generalizing b c with
  | nil => cases c <;> simp [charListCmp]
  | cons x xs ih =>
    cases b with
    | nil => simp [charListCmp] at hab
    | cons y ys =>
      cases c with
      | nil => simp [charListCmp] at hbc
      | cons z zs =>
        by_cases hxy : x < y
        · -- x < y, and y ≤ z from hbc
          by_cases hyz : y < z
          · have hxz : x < z := lt_trans hxy hyz
            simp [charListCmp, hxz]
          · by_cases hzy : z < y
            · simp [charListCmp, hyz, hzy] at hbc
            · have hyz' : y = z := le_antisymm (not_lt.mp hzy) (not_lt.mp hyz)
              have hxz : x < z := hyz' ▸ hxy
              simp [charListCmp, hxz]
        · by_cases hyx : y < x
          · simp [charListCmp, hxy, hyx] at hab
          · have hxy' : x = y := le_antisymm (not_lt.mp hyx) (not_lt.mp hxy)
            subst hxy'
            by_cases hxz : x < z
            · simp [charListCmp, hxz]
            · by_cases hzx : z < x
              · exfalso
                have h1 : charListCmp (x :: ys) (z :: zs) = 1 := by
                  simp [charListCmp, hxz, hzx]
                rw [h1] at hbc
                omega
              · simp [charListCmp, hxy] at hab
                simp [charListCmp, hxz, hzx] at hbc ⊢
                exact ih hab hbc

theorem strCmp_trans {a b c : String} (hab : strCmp a b ≤ 0) (hbc : strCmp b c ≤ 0) :
    strCmp a c ≤ 0 := charListCmp_trans hab hbc

theorem strCmp_total (a b : String) : strCmp a b ≤ 0 ∨ strCmp b a ≤ 0 := by
  unfold strCmp
  rw [charListCmp_swap]
  omega

/- ————————————————————————————————————————————————————————————————
   Date helpers: src/lib/dateUtils.ts
   ———————————————————————————————————————————————————————————————— -/

/-- Milliseconds per day (`msPerDay` in `diffDaysDateOnly`). -/
def msPerDay : Int := 1000 * 60 * 60 * 24

/-- Days since the Unix epoch of a proleptic-Gregorian calendar date
(year, month 1–12, day), Howard Hinnant's `days_from_civil` — exactly the
day count underlying ECMAScript `Date.UTC(y, m-1, d) / 86400000` for
in-range fields. `/` and `%` on `Int` with positive divisors are floor
division and nonnegative remainder, matching `Math.floor`. The day
argument appears only as an offset, so the formula is also the timestamp
`Date` produces for an out-of-range day number of a valid month. -/
def daysFromCivil (y m d : Int) : Int :=
  let yy := if m ≤ 2 then y - 1 else y
  let era := yy / 400
  let yoe := yy - era * 400
  let mp := (m + 9) % 12
  let doy := (153 * mp + 2) / 5 + d - 1
  let doe := yoe * 365 + yoe / 4 - yoe / 100 + doy
  era * 146097 + doe - 719468

/-- ECMAScript `MakeDay(y, mIdx, d)`: the day number `new Date(y, mIdx, d)`
and `Date.UTC(y, mIdx, d)` denote, with an arbitrary zero-based month index
rolling over into the year and the day counted from the first of the
resulting month. -/
def makeDay (y mIdx d : Int) : Int :=
  let ym := y * 12 + mIdx
  daysFromCivil (ym / 12) (ym % 12 + 1) 1 + (d - 1)

/-- ECMAScript `MakeFullYear`: the legacy two-digit-year rule applied by
the `Date(year, month, day)` constructor used in `parseDateOnly` —
a year between 0 and 99 is interpreted as 1900 + year. -/
def makeFullYear (y : Int) : Int := if 0 ≤ y ∧ y ≤ 99 then 1900 + y else y

/-- Numeric value of a decimal digit character. -/
def digitVal (c : Char) : Nat := c.toNat - 48

/-- The test of the regex `^\d{4}-\d{2}-\d{2}$` guarding `parseDateOnly`. -/
def dateShapeOk (s : String) : Bool :=
  match s.toList with
  | [y1, y2, y3, y4, h1, m1, m2, h2, d1, d2] =>
    y1.isDigit && y2.isDigit && y3.isDigit && y4.isDigit && h1 == '-' &&
    m1.isDigit && m2.isDigit && h2 == '-' && d1.isDigit && d2.isDigit
  | _ => false

/-- The numeric (year, month, day) fields `dateStr.split('-').map(Number)`
reads off a string passing the shape test; `none` when the shape fails. -/
def dateFields (s : String) : Option (Nat × Nat × Nat) :=
  match s.toList with
  | [y1, y2, y3, y4, h1, m1, m2, h2, d1, d2] =>
    if y1.isDigit && y2.isDigit && y3.isDigit && y4.isDigit && h1 == '-' &&
        m1.isDigit && m2.isDigit && h2 == '-' && d1.isDigit && d2.isDigit then
      some (1000 * digitVal y1 + 100 * digitVal y2 + 10 * digitVal y3 + digitVal y4,
            10 * digitVal m1 + digitVal m2,
            10 * digitVal d1 + digitVal d2)
    else none
  | _ => none

/-- `parseDateOnly(dateStr)` from src/lib/dateUtils.ts, modelled as the
epoch-day number of the local-midnight `Date` it returns — the only data
callers read from that `Date` are its civil year/month/day (via
`getFullYear`/`getMonth`/`getDate`), i.e. exactly this day number, and
those fields are timezone-independent for a local-midnight value. Per
ECMAScript, `new Date(y, m - 1, d)` applies `MakeFullYear` to `y` and
`MakeDay` to the fields. `none` models the thrown
`Invalid date format` error. -/
def parseDateOnly (s : String) : Option Int :=
  (dateFields s).map fun f =>
    makeDay (makeFullYear (f.1 : Int)) ((f.2.1 : Int) - 1) (f.2.2 : Int)

/-- `diffDaysDateOnly(fromDateStr, toDateStr)` from src/lib/dateUtils.ts:
parse both dates, take `Date.UTC` midnight timestamps of their civil
fields, subtract, divide by `msPerDay` and `Math.floor`. `none` models a
thrown parse error from either argument. -/
def diffDaysDateOnly (fromDateStr toDateStr : String) : Option Int := do
  let f ← parseDateOnly fromDateStr
  let t ← parseDateOnly toDateStr
  pure ((f * msPerDay - t * msPerDay) / msPerDay)

/-- Whether `y` is a leap year in the proleptic Gregorian calendar. -/
def isLeapYear (y : Nat) : Bool := (y % 4 == 0 && y % 100 != 0) || y % 400 == 0

/-- Number of days of month `m` (1–12) in year `y`. -/
def daysInMonth (y m : Nat) : Nat :=
  if m = 2 then (if isLeapYear y then 29 else 28)
  else if m = 4 ∨ m = 6 ∨ m = 9 ∨ m = 11 then 30 else 31

/-- A string denotes a valid calendar date: the regex shape holds and the
fields form an existing proleptic-Gregorian date. -/
def validDate (s : String) : Prop :=
  ∃ y m d, dateFields s = some (y, m, d) ∧
    1 ≤ m ∧ m ≤ 12 ∧ 1 ≤ d ∧ d ≤ daysInMonth y m

theorem daysFromCivil_day_offset (y m d : Int) :
    daysFromCivil y m d = daysFromCivil y m 1 + (d - 1) := by
  by_cases h : m ≤ 2
  · simp only [daysFromCivil, if_pos h]; omega
  · simp only [daysFromCivil, if_neg h]; omega

theorem makeDay_eq_daysFromCivil (y m d : Int) (h1 : 1 ≤ m) (h2 : m ≤ 12) :
    makeDay y (m - 1) d = daysFromCivil y m d := by
  unfold makeDay
  show daysFromCivil ((y * 12 + (m - 1)) / 12) ((y * 12 + (m - 1)) % 12 + 1) 1
        + (d - 1) = daysFromCivil y m d
  have hq : (y * 12 + (m - 1)) / 12 = y := by omega
  have hr : (y * 12 + (m - 1)) % 12 + 1 = m := by omega
  rw [hq, hr, daysFromCivil_day_offset y m d]

theorem dateFields_isSome (s : String) : (dateFields s).isSome = dateShapeOk s := by
  unfold dateFields dateShapeOk
  rcases s.toList with _ | ⟨c1, _ | ⟨c2, _ | ⟨c3, _ | ⟨c4, _ | ⟨c5, _ | ⟨c6, _ |
    ⟨c7, _ | ⟨c8, _ | ⟨c9, _ | ⟨c10, _ | ⟨c11, rest⟩⟩⟩⟩⟩⟩⟩⟩⟩⟩⟩ <;> simp
  split <;> simp_all

theorem msPerDay_pos : (0 : Int) < msPerDay := by norm_num [msPerDay]

theorem diff_mul_msPerDay (a b : Int) :
    (a * msPerDay - b * msPerDay) / msPerDay = a - b := by
  rw [← sub_mul, Int.mul_ediv_cancel _ (by norm_num [msPerDay])]

/-- Claim C10: `parseDateOnly` throws exactly on input strings that do not
match `^\d{4}-\d{2}-\d{2}$` (its only throw site is that regex guard), and
`diffDaysDateOnly` therefore throws iff at least one of its two arguments
is malformed; on every pair of shape-matching arguments both return
normally (`diffDaysDateOnly` with an integer — the embedding returns
`Int` values, and the JavaScript arithmetic involved is exact). -/
theorem claim_C10_throw_conditions (s t : String) :
    (parseDateOnly s).isSome = dateShapeOk s ∧
    (diffDaysDateOnly s t).isSome = (dateShapeOk s && dateShapeOk t) := by
  constructor
  · rw [← dateFields_isSome]
    unfold parseDateOnly
    cases dateFields s <;> rfl
  · rw [← dateFields_isSome s, ← dateFields_isSome t]
    unfold diffDaysDateOnly parseDateOnly
    cases dateFields s <;> cases dateFields t <;> rfl

/-- Claim C6 counterexample: both strings are well-formed `YYYY-MM-DD`
strings denoting valid calendar dates (year 0 is a leap year in the
proleptic Gregorian calendar), their UTC day numbers differ by 2 (the
interval crosses Feb 29 of year 0), but `diffDaysDateOnly` returns 1:
the ECMAScript `Date(year, month, day)` constructor used by
`parseDateOnly` maps years 0–99 to 1900–1999, and 1900 is not a leap
year. -/
theorem claim_C6_counterexample :
    dateShapeOk "0000-03-01" = true ∧ dateShapeOk "0000-02-28" = true ∧
    validDate "0000-03-01" ∧ validDate "0000-02-28" ∧
    daysFromCivil 0 3 1 - daysFromCivil 0 2 28 = 2 ∧
    diffDaysDateOnly "0000-03-01" "0000-02-28" = some 1 := by
  refine ⟨by decide, by decide, ⟨0, 3, 1, by decide, by decide, by decide,
    by decide, by decide⟩, ⟨0, 2, 28, by decide, by decide, by decide,
    by decide, by decide⟩, by decide, by decide⟩

/-- Claim C6 (amended): for well-formed `YYYY-MM-DD` strings denoting
valid calendar dates whose year field is at least 0100 (the ECMAScript
`Date` constructor rewrites years 0–99 to 1900–1999), `diffDaysDateOnly`
returns exactly the difference of the UTC day numbers of the two calendar
dates — an exact integer, independent of the local timezone since only
the civil fields of the parsed local-midnight dates enter the
computation. In particular it returns exactly 1 on
`"2024-03-11", "2024-03-10"`. -/
theorem claim_C6_amended (s t : String) (ys ms ds yt mt dt : Nat)
    (hs : dateFields s = some (ys, ms, ds))
    (ht : dateFields t = some (yt, mt, dt))
    (hys : 100 ≤ ys) (hyt : 100 ≤ yt)
    (hms1 : 1 ≤ ms) (hms2 : ms ≤ 12) (hmt1 : 1 ≤ mt) (hmt2 : mt ≤ 12)
    (hds1 : 1 ≤ ds) (hds2 : ds ≤ daysInMonth ys ms)
    (hdt1 : 1 ≤ dt) (hdt2 : dt ≤ daysInMonth yt mt) :
    diffDaysDateOnly s t =
      some (daysFromCivil (ys : Int) (ms : Int) (ds : Int) -
            daysFromCivil (yt : Int) (mt : Int) (dt : Int)) := by
  have hfy : ∀ y : Nat, 100 ≤ y → makeFullYear (y : Int) = (y : Int) := by
    intro y hy
    unfold makeFullYear
    rw [if_neg]
    omega
  have hmk : ∀ (y m d : Nat), 100 ≤ y → 1 ≤ m → m ≤ 12 →
      makeDay (makeFullYear (y : Int)) ((m : Int) - 1) (d : Int) =
        daysFromCivil (y : Int) (m : Int) (d : Int) := by
    intro y m d hy hm1 hm2
    rw [hfy y hy]
    exact makeDay_eq_daysFromCivil _ _ _ (by omega) (by omega)
  unfold diffDaysDateOnly parseDateOnly
  rw [hs, ht]
  simp [hmk ys ms ds hys hms1 hms2, hmk yt mt dt hyt hmt1 hmt2, diff_mul_msPerDay]

/-- Witness for the amended C6 at the US-DST-boundary pair of the spec:
the difference is exactly 1. -/
theorem claim_C6_amended_witness :
    diffDaysDateOnly "2024-03-11" "2024-03-10" = some 1 := by
  have h := claim_C6_amended "2024-03-11" "2024-03-10" 2024 3 11 2024 3 10
    (by decide) (by decide) (by decide) (by decide) (by decide) (by decide)
    (by decide) (by decide) (by decide) (by decide) (by decide) (by decide)
  rw [h]
  decide

/- ————————————————————————————————————————————————————————————————
   Statistics: the stats memo of src/app/items/[id]/page.tsx
   ———————————————————————————————————————————————————————————————— -/

structure ItemStats where
  average : Int
  total : Nat
  shortest : Int
deriving DecidableEq

/-- ECMAScript `Math.round(num / den)` for integer `num` and positive
integer `den`: nearest integer with halves rounded toward positive
infinity, i.e. `⌊num/den + 1/2⌋`, written in exact integer arithmetic as
`⌊(2·num + den) / (2·den)⌋` (see `jsRound_eq_floor`). The float division
in the source is exact at every magnitude this application produces. -/
def jsRound (num : Int) (den : Nat) : Int := (2 * num + (den : Int)) / (2 * (den : Int))

theorem jsRound_eq_floor (num : Int) (den : Nat) (h : 0 < den) :
    jsRound num den = ⌊((num : ℚ) / (den : ℚ) + 1 / 2 : ℚ)⌋ := by
  have hd : (den : ℚ) ≠ 0 := by
    exact_mod_cast Nat.pos_iff_ne_zero.mp h
  have h2 : ((num : ℚ) / (den : ℚ) + 1 / 2 : ℚ)
      = ((2 * num + (den : Int) : ℤ) : ℚ) / ((2 * den : ℕ) : ℚ) := by
    push_cast
    field_simp
    ring
  rw [h2, Rat.floor_intCast_div_natCast]
  unfold jsRound
  push_cast
  try ring

/-- The consecutive-gaps loop of the `stats` memo: for the item's logs
sorted descending, `gaps[i] = diffDaysDateOnly(logs[i].date,
logs[i+1].date)`. `none` models a date-parse throw inside the loop. -/
def statsGaps : List String → Option (List Int)
  | [] => some []
  | [_] => some []
  | a :: b :: rest => do
    let g ← diffDaysDateOnly a b
    let gs ← statsGaps (b :: rest)
    pure (g :: gs)

/-- `Math.min(...gaps)`; the nil case is unreachable inside `stats`
(guarded by the two length checks). -/
def gapsMin : List Int → Int
  | [] => 0
  | g :: gs => gs.foldl min g

/-- The `stats` memo of the item detail page (src/app/items/[id]/page.tsx):
0 logs and 1 log give the sentinel records; otherwise the consecutive
gaps, `average = Math.round(totalGap / gaps.length)`, `total` the log
count and `shortest = Math.min(...gaps)`. Takes the list of the logs'
dates (the only log field the computation reads). -/
def stats (dates : List String) : Option ItemStats :=
  match dates with
  | [] => some { average := 0, total := 0, shortest := 0 }
  | [_] => some { average := 0, total := 1, shortest := 0 }
  | _ => do
    let gaps ← statsGaps dates
    let totalGap : Int := gaps.foldl (· + ·) 0
    let average := jsRound totalGap gaps.length
    pure { average := average, total := dates.length, shortest := gapsMin gaps }

/-- The adjacent-differences list `eds.zipWith (· - ·) eds.tail` — what
the gaps of a descending log list are in terms of the logs' epoch-day
numbers. -/
def gapsOf (eds : List Int) : List Int :=
  List.zipWith (fun a b => a - b) eds eds.tail

theorem diffDays_of_parse {a b : String} {x y : Int}
    (ha : parseDateOnly a = some x) (hb : parseDateOnly b = some y) :
    diffDaysDateOnly a b = some (x - y) := by
  unfold diffDaysDateOnly
  rw [ha, hb]
  simp [diff_mul_msPerDay]

theorem statsGaps_eq (dates : List String) (eds : List Int)
    (h : dates.map parseDateOnly = eds.map some) :
    statsGaps dates = some (List.zipWith (fun a b => a - b) eds eds.tail) := by
  induction dates generalizing eds with
  | nil =>
    cases eds with
    | nil => simp [statsGaps]
    | cons e es => simp at h
  | cons a rest ih =>
    cases eds with
    | nil => simp at h
    | cons e es =>
      simp only [List.map_cons, List.cons.injEq] at h
      obtain ⟨ha, hrest⟩ := h
      cases rest with
      | nil =>
        cases es with
        | nil => simp [statsGaps]
        | cons e2 es2 => simp at hrest
      | cons b rest2 =>
        cases es with
        | nil => simp at hrest
        | cons e2 es2 =>
          have hb : parseDateOnly b = some e2 := by
            simpa using congrArg (fun l => l.head?) hrest
          have : statsGaps (b :: rest2) =
              some (List.zipWith (fun a b => a - b) (e2 :: es2) (e2 :: es2).tail) :=
            ih (e2 :: es2) hrest
          simp [statsGaps, diffDays_of_parse ha hb, this]

theorem foldl_min_mem (g : Int) (gs : List Int) : gs.foldl min g ∈ g :: gs := by
  induction gs generalizing g with
  | nil => simp
  | cons x xs ih =>
    simp only [List.foldl_cons]
    have h := ih (min g x)
    rcases List.mem_cons.mp h with h1 | h1
    · rw [h1]
      rcases min_cases g x with ⟨h2, _⟩ | ⟨h2, _⟩ <;> simp [h2]
    · simp [h1]

theorem foldl_min_le (gs : List Int) :
    ∀ (g : Int), ∀ x ∈ g :: gs, gs.foldl min g ≤ x := by
  induction gs with
  | nil =>
    intro g x hx
    simp at hx
    simp [hx]
  | cons y ys ih =>
    intro g x hx
    simp only [List.foldl_cons]
    rcases List.mem_cons.mp hx with h1 | h1
    · rw [h1]
      exact le_trans (ih (min g y) (min g y) (List.mem_cons_self _ _)) (min_le_left g y)
    · rcases List.mem_cons.mp h1 with h2 | h2
      · rw [h2]
        exact le_trans (ih (min g y) (min g y) (List.mem_cons_self _ _)) (min_le_right g y)
      · exact ih (min g y) x (List.mem_cons_of_mem _ h2)

theorem zipWith_sub_nonneg (eds : List Int) (h : eds.Chain' (fun a b => b ≤ a)) :
    ∀ g ∈ List.zipWith (fun a b => a - b) eds eds.tail, 0 ≤ g := by
  induction eds with
  | nil => simp
  | cons e es ih =>
    cases es with
    | nil => simp
    | cons e2 es2 =>
      rw [List.chain'_cons] at h
      intro g hg
      simp only [List.tail_cons, List.zipWith_cons_cons, List.mem_cons] at hg
      rcases hg with h1 | h1
      · omega
      · exact ih h.2 g (by simpa using h1)

theorem stats_cons_cons (a b : String) (rest : List String) (gaps : List Int)
    (h : statsGaps (a :: b :: rest) = some gaps) :
    stats (a :: b :: rest) =
      some { average := jsRound (gaps.foldl (· + ·) 0) gaps.length,
             total := (a :: b :: rest).length, shortest := gapsMin gaps } := by
  unfold stats
  rw [h]
  rfl

/-- Claim C5: for an item's logs sorted descending by date — with the
log dates parsing to epoch-day numbers `eds`, descending — the statistics
are: 0 logs give average=0, total=0, shortest=0; 1 log gives average=0,
total=1, shortest=0; n ≥ 2 logs give the n−1 gaps as the day differences
of each adjacent pair (newer minus older, each ≥ 0), total = n, average =
round(sum(gaps)/(n−1)) under round-half-up, and shortest = min(gaps)
(characterized as a member of the gaps that bounds them all below). In
particular the dates ["2024-01-10","2024-01-05","2024-01-01"] give gaps
[5,4], average 5, total 3, shortest 4. -/
theorem claim_C5_statistics :
    (stats [] = some { average := 0, total := 0, shortest := 0 }) ∧
    (∀ s, stats [s] = some { average := 0, total := 1, shortest := 0 }) ∧
    (∀ (dates : List String) (eds : List Int),
      dates.map parseDateOnly = eds.map some →
      eds.Chain' (fun a b => b ≤ a) →
      2 ≤ dates.length →
      statsGaps dates = some (gapsOf eds) ∧
      (gapsOf eds).length = dates.length - 1 ∧
      (∀ g ∈ gapsOf eds, 0 ≤ g) ∧
      gapsMin (gapsOf eds) ∈ gapsOf eds ∧
      (∀ g ∈ gapsOf eds, gapsMin (gapsOf eds) ≤ g) ∧
      stats dates = some {
        average := ⌊(((gapsOf eds).sum : ℚ) / ((gapsOf eds).length : ℚ) + 1 / 2 : ℚ)⌋,
        total := dates.length,
        shortest := gapsMin (gapsOf eds) }) ∧
    (statsGaps ["2024-01-10", "2024-01-05", "2024-01-01"] = some [5, 4] ∧
     stats ["2024-01-10", "2024-01-05", "2024-01-01"] =
       some { average := 5, total := 3, shortest := 4 }) := by
  refine ⟨rfl, fun s => rfl, ?_, by decide, by decide⟩
  intro dates eds hpar hchain hlen
  have hlens : dates.length = eds.length := by
    have h := congrArg List.length hpar
    simpa using h
  have hsg : statsGaps dates = some (gapsOf eds) := statsGaps_eq dates eds hpar
  have hglen : (gapsOf eds).length = dates.length - 1 := by
    unfold gapsOf
    rw [List.length_zipWith, List.length_tail]
    omega
  have hnn : ∀ g ∈ gapsOf eds, 0 ≤ g := zipWith_sub_nonneg eds hchain
  have hne : gapsOf eds ≠ [] := by
    intro hemp
    rw [hemp] at hglen
    simp at hglen
    omega
  obtain ⟨g0, gs, hcons⟩ : ∃ g0 gs, gapsOf eds = g0 :: gs := by
    cases hg : gapsOf eds with
    | nil => exact absurd hg hne
    | cons g0 gs => exact ⟨g0, gs, rfl⟩
  have hmem : gapsMin (gapsOf eds) ∈ gapsOf eds := by
    rw [hcons]
    exact foldl_min_mem g0 gs
  have hlb : ∀ g ∈ gapsOf eds, gapsMin (gapsOf eds) ≤ g := by
    rw [hcons]
    exact foldl_min_le gs g0
  refine ⟨hsg, hglen, hnn, hmem, hlb, ?_⟩
  obtain ⟨a, b, rest, hd⟩ : ∃ a b rest, dates = a :: b :: rest := by
    cases dates with
    | nil => simp at hlen
    | cons a tl =>
      cases tl with
      | nil => simp at hlen
      | cons b rest => exact ⟨a, b, rest, rfl⟩
  subst hd
  have hpos : 0 < (gapsOf eds).length := by
    rw [hcons]
    simp
  rw [stats_cons_cons a b rest (gapsOf eds) hsg]
  have havg : jsRound ((gapsOf eds).foldl (· + ·) 0) (gapsOf eds).length
      = ⌊(((gapsOf eds).sum : ℚ) / ((gapsOf eds).length : ℚ) + 1 / 2 : ℚ)⌋ := by
    rw [show (gapsOf eds).foldl (· + ·) 0 = (gapsOf eds).sum from List.sum_eq_foldl.symm]
    exact jsRound_eq_floor _ _ hpos
  rw [havg]

/-- Witness for C5 at the spec's concrete example: three dates, gaps
[5, 4], average 5, total 3, shortest 4. -/
theorem claim_C5_statistics_witness :
    statsGaps ["2024-01-10", "2024-01-05", "2024-01-01"] = some [5, 4] ∧
    stats ["2024-01-10", "2024-01-05", "2024-01-01"] =
      some { average := 5, total := 3, shortest := 4 } := by
  have h := claim_C5_statistics.2.2.1 ["2024-01-10", "2024-01-05", "2024-01-01"]
    [19732, 19727, 19723] (by decide)
    (by norm_num [List.chain'_cons, List.chain'_singleton]) (by decide)
  refine ⟨h.1.trans (by decide), (h.2.2.2.2.2.trans ?_)⟩
  have hg : gapsOf [19732, 19727, 19723] = [5, 4] := by decide
  rw [hg]
  have hfl : ⌊((([5, 4] : List Int).sum : ℚ) / (([5, 4] : List Int).length : ℚ) + 1 / 2 : ℚ)⌋
      = (5 : Int) := by
    norm_num
  rw [hfl]
  decide

/- ————————————————————————————————————————————————————————————————
   Log store: src/lib/storage/logsRepo.ts
   ———————————————————————————————————————————————————————————————— -/

/-- The comparator relation of `logs.sort((a, b) =>
b.date.localeCompare(a.date))`: `a` sorts no later than `b` when the
comparator value is ≤ 0, i.e. `b.date ≤ a.date` — date descending. -/
def logDateDescLe (a b : LogEntry) : Bool := decide (strCmp b.date a.date ≤ 0)

theorem logDateDescLe_trans (a b c : LogEntry)
    (h1 : logDateDescLe a b = true) (h2 : logDateDescLe b c = true) :
    logDateDescLe a c = true := by
  simp only [logDateDescLe, decide_eq_true_eq] at h1 h2 ⊢
  exact strCmp_trans h2 h1

theorem logDateDescLe_total (a b : LogEntry) :
    (logDateDescLe a b || logDateDescLe b a) = true := by
  simp only [logDateDescLe, Bool.or_eq_true, decide_eq_true_eq]
  exact strCmp_total b.date a.date

namespace logsRepo

/-- `logsRepo.listByItem(itemId)`: the records of the `by-item` index for
this key (all logs whose `itemId` field equals it), sorted by `date`
descending with `localeCompare`. The index returns its matches in
primary-key order; the subsequent stable sort makes the result sorted by
the comparator in every case, which is what is proved below. -/
def listByItem (logs : List LogEntry) (itemId : String) : List LogEntry :=
  (logs.filter (fun l => l.itemId == itemId)).mergeSort logDateDescLe

/-- `logsRepo.getLastLog(itemId)`: first element of `listByItem`,
`undefined` (here `none`) when the item has no logs. -/
def getLastLog (logs : List LogEntry) (itemId : String) : Option LogEntry :=
  (listByItem logs itemId).head?

end logsRepo

/-- Claim C7: `listByItem(itemId)` returns exactly the log entries whose
`itemId` equals the argument (a permutation of that filter), sorted by
date descending under string comparison; `getLastLog(itemId)` returns the
first element of that list — an entry of maximal date among the item's
logs — or none when the item has no logs. -/
theorem claim_C7_listByItem_getLastLog (logs : List LogEntry) (itemId : String) :
    (logsRepo.listByItem logs itemId).Perm
      (logs.filter (fun l => l.itemId == itemId)) ∧
    (∀ l ∈ logsRepo.listByItem logs itemId, l.itemId = itemId) ∧
    (logsRepo.listByItem logs itemId).Pairwise
      (fun a b => strCmp b.date a.date ≤ 0) ∧
    (logsRepo.getLastLog logs itemId = none ↔
      logs.filter (fun l => l.itemId == itemId) = []) ∧
    (∀ l, logsRepo.getLastLog logs itemId = some l →
      l ∈ logs.filter (fun l2 => l2.itemId == itemId) ∧
      ∀ l2 ∈ logs.filter (fun l2 => l2.itemId == itemId),
        strCmp l2.date l.date ≤ 0) := by
  have hperm : (logsRepo.listByItem logs itemId).Perm
      (logs.filter (fun l => l.itemId == itemId)) :=
    List.mergeSort_perm _ _
  have hpw0 : (logsRepo.listByItem logs itemId).Pairwise
      (fun a b => logDateDescLe a b = true) :=
    List.sorted_mergeSort logDateDescLe_trans logDateDescLe_total _
  have hpw : (logsRepo.listByItem logs itemId).Pairwise
      (fun a b => strCmp b.date a.date ≤ 0) := by
    refine hpw0.imp ?_
    intro a b h
    simpa [logDateDescLe] using h
  refine ⟨hperm, ?_, hpw, ?_, ?_⟩
  · intro l hl
    have := hperm.mem_iff.mp hl
    exact of_decide_eq_true (List.mem_filter.mp this).2
  · constructor
    · intro h
      have hnil : logsRepo.listByItem logs itemId = [] := by
        rw [logsRepo.getLastLog] at h
        exact List.head?_eq_none_iff.mp h
      exact ((hnil ▸ hperm).nil_eq).symm
    · intro h
      have : (logsRepo.listByItem logs itemId).length = 0 := by
        rw [hperm.length_eq, h]
        rfl
      rw [List.length_eq_zero] at this
      rw [logsRepo.getLastLog, this]
      rfl
  · intro l hl
    obtain ⟨rest, hcons⟩ : ∃ rest, logsRepo.listByItem logs itemId = l :: rest := by
      cases hc : logsRepo.listByItem logs itemId with
      | nil =>
        rw [logsRepo.getLastLog, hc] at hl
        simp [List.head?] at hl
      | cons x xs =>
        rw [logsRepo.getLastLog, hc] at hl
        simp [List.head?] at hl
        exact ⟨xs, by rw [hl]⟩
    constructor
    · exact hperm.mem_iff.mp (by rw [hcons]; exact List.mem_cons_self _ _)
    · intro l2 hl2
      have hl2' : l2 ∈ l :: rest := by
        rw [← hcons]
        exact hperm.mem_iff.mpr hl2
      rcases List.mem_cons.mp hl2' with h1 | h1
      · rw [h1]
        have h0 : strCmp l.date l.date = 0 := charListCmp_self _
        omega
      · have := (hcons ▸ hpw)
        rw [List.pairwise_cons] at this
        exact this.1 l2 h1

/- ————————————————————————————————————————————————————————————————
   Item store: src/unnamed/part_002 (itemsRepo)
   ———————————————————————————————————————————————————————————————— -/

/-- A `Partial<Item>` merge patch (`{ ...item, ...updates }`): the fields
callers may supply. The `id` key is never part of a caller's patch (it is
the store key the record was fetched under). -/
structure ItemPatch where
  title : Option String := none
  categoryId : Option String := none
  createdAt : Option String := none
deriving DecidableEq

def itemMerge (it : Item) (p : ItemPatch) : Item :=
  { it with
    title := p.title.getD it.title,
    categoryId := p.categoryId.getD it.categoryId,
    createdAt := p.createdAt.getD it.createdAt }

namespace itemsRepo

/-- `itemsRepo.getAll()`: the raw record list, no sort applied. -/
def getAll (db : DBState) : List Item := db.items

/-- `itemsRepo.update(id, updates)`: fetch by key, merge-patch and put
back if present, no-op otherwise; never an error (total function). -/
def update (db : DBState) (id : String) (p : ItemPatch) : DBState :=
  { db with
    items := db.items.map (fun it => if it.id == id then itemMerge it p else it) }

/-- `itemsRepo.delete(id)`: one readwrite transaction over `items` and
`logs` — a cursor over the `by-item` index deletes every log whose
`itemId` equals `id`, then the item record with key `id` is deleted; the
resulting state is the single atomic commit of that transaction. -/
def delete (db : DBState) (id : String) : DBState :=
  { db with
    logs := db.logs.filter (fun l => !(l.itemId == id)),
    items := db.items.filter (fun it => !(it.id == id)) }

end itemsRepo

/-- Claim C2: after `itemsRepo.delete(id)`, every log entry whose itemId
equals id is gone — a subsequent `listByItem(id)` returns the empty list —
and the item itself is absent from `getAll()`. The log deletions and the
item deletion happen in one transaction (a single state transition here),
so they commit together. -/
theorem claim_C2_item_delete_cascades (db : DBState) (id : String) :
    logsRepo.listByItem (itemsRepo.delete db id).logs id = [] ∧
    (∀ it ∈ itemsRepo.getAll (itemsRepo.delete db id), it.id ≠ id) := by
  constructor
  · have hfil : (itemsRepo.delete db id).logs.filter (fun l => l.itemId == id) = [] := by
      rw [itemsRepo.delete]
      simp only [List.filter_filter]
      apply List.filter_eq_nil_iff.mpr
      intro l hl
      simp
    rw [logsRepo.listByItem, hfil]
    simp
  · intro it hit
    rw [itemsRepo.getAll, itemsRepo.delete] at hit
    simp only [List.mem_filter, Bool.not_eq_eq_eq_not, Bool.not_true, beq_eq_false_iff_ne,
      ne_eq] at hit
    exact hit.2

/- ————————————————————————————————————————————————————————————————
   Merge-patch updates of the other two stores
   (src/unnamed/part_003 categoriesRepo.update, src/lib/storage/logsRepo.ts
   logsRepo.update)
   ———————————————————————————————————————————————————————————————— -/

/-- A `Partial<Category>` merge patch (content fields). -/
structure CategoryPatch where
  name : Option String := none
  sortOrder : Option Nat := none
  createdAt : Option String := none
  color : Option (Option String) := none
deriving DecidableEq

def categoryMerge (c : Category) (p : CategoryPatch) : Category :=
  { c with
    name := p.name.getD c.name,
    sortOrder := p.sortOrder.getD c.sortOrder,
    createdAt := p.createdAt.getD c.createdAt,
    color := p.color.getD c.color }

/-- A `Partial<LogEntry>` merge patch (content fields). -/
structure LogPatch where
  itemId : Option String := none
  date : Option String := none
  note : Option (Option String) := none
  createdAt : Option String := none
deriving DecidableEq

def logMerge (l : LogEntry) (p : LogPatch) : LogEntry :=
  { l with
    itemId := p.itemId.getD l.itemId,
    date := p.date.getD l.date,
    note := p.note.getD l.note,
    createdAt := p.createdAt.getD l.createdAt }

namespace categoriesRepo

/-- `categoriesRepo.update(id, updates)`: fetch by key, merge-patch and
put back if present, no-op otherwise; never an error. -/
def update (db : DBState) (id : String) (p : CategoryPatch) : DBState :=
  { db with
    categories :=
      db.categories.map (fun c => if c.id == id then categoryMerge c p else c) }

end categoriesRepo

namespace logsRepo

/-- `logsRepo.update(id, updates)`: fetch by key, merge-patch and put
back if present, no-op otherwise; never an error. -/
def update (db : DBState) (id : String) (p : LogPatch) : DBState :=
  { db with
    logs := db.logs.map (fun l => if l.id == id then logMerge l p else l) }

end logsRepo

theorem map_id_of_fixed {α : Type} (l : List α) (f : α → α)
    (h : ∀ x ∈ l, f x = x) : l.map f = l := by
  induction l with
  | nil => rfl
  | cons x xs ih =>
    rw [List.map_cons, h x (List.mem_cons_self _ _), ih (fun y hy => h y (List.mem_cons_of_mem _ hy))]

/-- Claim C9: for each of the categories, items and logs stores, calling
`update(id, patch)` when no record with key `id` exists leaves the store
completely unchanged. Each update is a total state function (it resolves
without error by construction — there is no throw site), so the caller
receives no distinguishing signal. -/
theorem claim_C9_update_missing_id_noop (db : DBState) (id : String)
    (cp : CategoryPatch) (ip : ItemPatch) (lp : LogPatch) :
    ((∀ c ∈ db.categories, c.id ≠ id) → categoriesRepo.update db id cp = db) ∧
    ((∀ it ∈ db.items, it.id ≠ id) → itemsRepo.update db id ip = db) ∧
    ((∀ l ∈ db.logs, l.id ≠ id) → logsRepo.update db id lp = db) := by
  refine ⟨?_, ?_, ?_⟩
  · intro h
    rw [categoriesRepo.update]
    have : db.categories.map (fun c => if c.id == id then categoryMerge c cp else c)
        = db.categories := by
      apply map_id_of_fixed
      intro c hc
      rw [if_neg]
      simp only [beq_iff_eq]
      exact h c hc
    rw [this]
  · intro h
    rw [itemsRepo.update]
    have : db.items.map (fun it => if it.id == id then itemMerge it ip else it)
        = db.items := by
      apply map_id_of_fixed
      intro it hit
      rw [if_neg]
      simp only [beq_iff_eq]
      exact h it hit
    rw [this]
  · intro h
    rw [logsRepo.update]
    have : db.logs.map (fun l => if l.id == id then logMerge l lp else l)
        = db.logs := by
      apply map_id_of_fixed
      intro l hl
      rw [if_neg]
      simp only [beq_iff_eq]
      exact h l hl
    rw [this]

/-- A small concrete database used by witnesses. -/
def dbW : DBState :=
  { categories := [{ id := "c1", name := "Home", sortOrder := 0,
                     createdAt := "2024-01-01T00:00:00Z", color := some "#B91C1C" }],
    items := [{ id := "i1", title := "Water plants", categoryId := "c1",
                createdAt := "2024-01-02" }],
    logs := [{ id := "l1", itemId := "i1", date := "2024-01-03", note := none,
               createdAt := "2024-01-03T10:00:00Z" }],
    prefs := some DEFAULT_PREFERENCES }

/-- Witness for C9: updating a key absent from all three stores of a
concrete database leaves each store unchanged. -/
theorem claim_C9_update_missing_id_noop_witness :
    categoriesRepo.update dbW "zz" {} = dbW ∧
    itemsRepo.update dbW "zz" {} = dbW ∧
    logsRepo.update dbW "zz" {} = dbW :=
  ⟨(claim_C9_update_missing_id_noop dbW "zz" {} {} {}).1 (by decide),
   (claim_C9_update_missing_id_noop dbW "zz" {} {} {}).2.1 (by decide),
   (claim_C9_update_missing_id_noop dbW "zz" {} {} {}).2.2 (by decide)⟩

/- ————————————————————————————————————————————————————————————————
   Seeding: seedDefaults of src/lib/storage/db.ts
   ———————————————————————————————————————————————————————————————— -/

/-- The default category records `seedDefaults` inserts when the
collection is empty: one per entry of `DEFAULT_CATEGORIES`, with
sequential `sortOrder`, the palette color of the same index
(`DEFAULT_CATEGORY_COLORS[index] || '#6B7280'`), a supplied fresh id per
index (`crypto.randomUUID()`) and a supplied timestamp
(`new Date().toISOString()`). -/
def defaultSeedCategories (uuid : Nat → String) (now : String) : List Category :=
  DEFAULT_CATEGORIES.enum.map (fun p =>
    { id := uuid p.1, name := p.2, sortOrder := p.1, createdAt := now,
      color := some (DEFAULT_CATEGORY_COLORS.getD p.1 "#6B7280") })

/-- `seedDefaults()` (src/lib/storage/db.ts): one readwrite transaction
over `categories` and `prefs`; inserts the default categories only when
`count() === 0`, and the default preferences only when the `settings` key
is absent. `uuid` supplies the generated ids and `now` the shared
creation timestamp. -/
def seedDefaults (uuid : Nat → String) (now : String) (db : DBState) : DBState :=
  { db with
    categories :=
      if db.categories.length == 0 then defaultSeedCategories uuid now
      else db.categories,
    prefs :=
      match db.prefs with
      | none => some DEFAULT_PREFERENCES
      | some p => some p }

theorem seedDefaults_noop (uuid : Nat → String) (now : String) (s : DBState)
    (h1 : s.categories.length ≠ 0) (h2 : ∃ p, s.prefs = some p) :
    seedDefaults uuid now s = s := by
  obtain ⟨p, hp⟩ := h2
  rw [seedDefaults, if_neg (by simpa using h1)]
  simp only [hp]
  rw [← hp]

/-- Claim C8: `seedDefaults` inserts the fixed ordered default category
list (sequential sortOrder, palette colors) only when the collection is
empty, inserts default preferences only when absent, and a second call —
with any fresh ids and timestamp — is a no-op, leaving exactly one set of
default categories and one preferences row. -/
theorem claim_C8_seed_idempotent (uuid uuid2 : Nat → String) (now now2 : String)
    (db : DBState) :
    (db.categories = [] →
      (seedDefaults uuid now db).categories = defaultSeedCategories uuid now) ∧
    ((defaultSeedCategories uuid now).map Category.name = DEFAULT_CATEGORIES) ∧
    ((defaultSeedCategories uuid now).map Category.sortOrder = List.range 9) ∧
    (db.categories ≠ [] → (seedDefaults uuid now db).categories = db.categories) ∧
    (db.prefs = none → (seedDefaults uuid now db).prefs = some DEFAULT_PREFERENCES) ∧
    (∀ p, db.prefs = some p → (seedDefaults uuid now db).prefs = some p) ∧
    (seedDefaults uuid2 now2 (seedDefaults uuid now db) = seedDefaults uuid now db) := by
  refine ⟨?_, ?_, ?_, ?_, ?_, ?_, ?_⟩
  · intro h
    rw [seedDefaults]
    simp [h]
  · rfl
  · rfl
  · intro h
    rw [seedDefaults]
    have h0 : db.categories.length ≠ 0 := by
      simpa [List.length_eq_zero] using h
    rw [if_neg (by simpa using h0)]
  · intro h
    rw [seedDefaults]
    simp [h]
  · intro p h
    rw [seedDefaults]
    simp [h]
  · have hcat : (seedDefaults uuid now db).categories.length ≠ 0 := by
      rw [seedDefaults]
      by_cases h : db.categories.length = 0
      · simp [h, defaultSeedCategories, DEFAULT_CATEGORIES]
      · simp [h]
    have hprefs : ∃ p, (seedDefaults uuid now db).prefs = some p := by
      rw [seedDefaults]
      cases db.prefs with
      | none => exact ⟨DEFAULT_PREFERENCES, rfl⟩
      | some p => exact ⟨p, rfl⟩
    exact seedDefaults_noop uuid2 now2 _ hcat hprefs

/-- An empty database, as on first run. -/
def dbEmpty : DBState := { categories := [], items := [], logs := [], prefs := none }

/-- Witness for C8 on the empty database: seeding inserts the default
categories and preferences, and a second call (with different fresh ids
and timestamp) changes nothing. -/
theorem claim_C8_seed_idempotent_witness :
    (seedDefaults (fun n => Nat.repr n) "t1" dbEmpty).categories
      = defaultSeedCategories (fun n => Nat.repr n) "t1" ∧
    (seedDefaults (fun n => Nat.repr n) "t1" dbEmpty).prefs = some DEFAULT_PREFERENCES ∧
    seedDefaults (fun n => "x" ++ Nat.repr n) "t2"
        (seedDefaults (fun n => Nat.repr n) "t1" dbEmpty)
      = seedDefaults (fun n => Nat.repr n) "t1" dbEmpty :=
  ⟨(claim_C8_seed_idempotent (fun n => Nat.repr n) (fun n => "x" ++ Nat.repr n)
      "t1" "t2" dbEmpty).1 rfl,
   (claim_C8_seed_idempotent (fun n => Nat.repr n) (fun n => "x" ++ Nat.repr n)
      "t1" "t2" dbEmpty).2.2.2.2.1 rfl,
   (claim_C8_seed_idempotent (fun n => Nat.repr n) (fun n => "x" ++ Nat.repr n)
      "t1" "t2" dbEmpty).2.2.2.2.2.2⟩

/- ————————————————————————————————————————————————————————————————
   Category store: src/unnamed/part_003 (categoriesRepo)
   ———————————————————————————————————————————————————————————————— -/

/-- The order in which the `by-sort` index returns category records:
ascending `sortOrder`, ties in ascending primary key (`id`), per the
IndexedDB index traversal order. The in-memory fallback
`sort((a, b) => a.sortOrder - b.sortOrder)` is a stable sort on the same
primary component, so every property proved below (which never depends on
the order of distinct records with equal `sortOrder` and id) holds for
both paths. -/
def catSortLe (a b : Category) : Bool :=
  decide (a.sortOrder < b.sortOrder ∨ (a.sortOrder = b.sortOrder ∧ strCmp a.id b.id ≤ 0))

theorem catSortLe_trans (a b c : Category)
    (h1 : catSortLe a b = true) (h2 : catSortLe b c = true) :
    catSortLe a c = true := by
  simp only [catSortLe, decide_eq_true_eq] at h1 h2 ⊢
  rcases h1 with h1 | ⟨h1e, h1s⟩
  · rcases h2 with h2 | ⟨h2e, _⟩
    · exact Or.inl (lt_trans h1 h2)
    · exact Or.inl (h2e ▸ h1)
  · rcases h2 with h2 | ⟨h2e, h2s⟩
    · exact Or.inl (h1e ▸ h2)
    · exact Or.inr ⟨h1e.trans h2e, strCmp_trans h1s h2s⟩

theorem catSortLe_total (a b : Category) :
    (catSortLe a b || catSortLe b a) = true := by
  simp only [catSortLe, Bool.or_eq_true, decide_eq_true_eq]
  rcases lt_trichotomy a.sortOrder b.sortOrder with h | h | h
  · exact Or.inl (Or.inl h)
  · rcases strCmp_total a.id b.id with hs | hs
    · exact Or.inl (Or.inr ⟨h, hs⟩)
    · exact Or.inr (Or.inr ⟨h.symm, hs⟩)
  · exact Or.inr (Or.inl h)

namespace categoriesRepo

/-- `categoriesRepo.list()`: all categories ordered by `sortOrder`
ascending (via the `by-sort` index, or the in-memory fallback sort). -/
def list (cats : List Category) : List Category :=
  cats.mergeSort catSortLe

/-- `categoriesRepo.reorder(idsInOrder)`: for each `[index, id]` of
`idsInOrder.entries()`, fetch the record with key `id`; when present, set
its `sortOrder` to `index` and put it back; ids with no record are
skipped silently. -/
def reorder (cats : List Category) (idsInOrder : List String) : List Category :=
  idsInOrder.enum.foldl
    (fun acc p =>
      acc.map (fun c => if c.id == p.2 then { c with sortOrder := p.1 } else c))
    cats

/-- `categoriesRepo.delete(id, replacementCategoryId?)`: one readwrite
transaction over `categories` and `items`. The reassignment branch is
guarded by `if (replacementCategoryId)` — JavaScript truthiness, which is
false for `undefined` and for the empty string alike. When the guard
holds, a cursor over the `by-category` index rewrites `categoryId` of
every item whose `categoryId` equals `id` to the replacement; otherwise
the items are left untouched. Then the category record with key `id` is
deleted. -/
def delete (db : DBState) (id : String) (replacementCategoryId : Option String) :
    DBState :=
  { db with
    items :=
      match replacementCategoryId with
      | some r =>
        if r == "" then db.items
        else
          db.items.map (fun it =>
            if it.categoryId == id then { it with categoryId := r } else it)
      | none => db.items,
    categories := db.categories.filter (fun c => !(c.id == id)) }

end categoriesRepo

/-- A database with one category "x" and one item assigned to it, used to
exhibit the self-replacement corner case of category deletion. -/
def dbX : DBState :=
  { categories := [{ id := "x", name := "Home", sortOrder := 0,
                     createdAt := "2024-01-01T00:00:00Z", color := some "#B91C1C" }],
    items := [{ id := "i1", title := "Water plants", categoryId := "x",
                createdAt := "2024-01-02" }],
    logs := [],
    prefs := none }

/-- Claim C3 counterexample: the claim quantifies over every replacement
id Y, and fails at two corner values of Y. For Y = X the items are
rewritten to X itself and then X is deleted, so after `delete("x", "x")`
on a store whose single item is in category "x", that item still has
`categoryId = "x"` (while "x" is gone from the category store). For
Y = "" the source's `if (replacementCategoryId)` truthiness guard is
false, so `delete("x", "")` skips the reassignment entirely and the item
likewise keeps `categoryId = "x"`. Both contradict "no item's categoryId
equals X". -/
theorem claim_C3_counterexample :
    (categoriesRepo.delete dbX "x" (some "x")).items.map Item.categoryId = ["x"] ∧
    (categoriesRepo.delete dbX "x" (some "x")).categories = [] ∧
    (categoriesRepo.delete dbX "x" (some "")).items.map Item.categoryId = ["x"] ∧
    (categoriesRepo.delete dbX "x" (some "")).categories = [] := by
  decide

theorem delete_items_reassign (db : DBState) (X Y : String) (hYe : Y ≠ "") :
    (categoriesRepo.delete db X (some Y)).items
      = db.items.map (fun it =>
          if it.categoryId == X then { it with categoryId := Y } else it) := by
  simp only [categoriesRepo.delete]
  rw [if_neg (by simpa using hYe)]

/-- Claim C3 (amended): for every category id X and every replacement id
Y with Y ≠ X and Y ≠ "" (the source guards the reassignment with
JavaScript truthiness, which skips it for the empty string),
`delete(X, Y)` — a single transaction — rewrites `categoryId` to Y on
every item whose `categoryId` was X (and leaves the other items
untouched); afterwards X is absent from `list()` and no item's
`categoryId` equals X. -/
theorem claim_C3_amended (db : DBState) (X Y : String) (hXY : Y ≠ X) (hYe : Y ≠ "") :
    (∀ it ∈ db.items, it.categoryId = X →
      { it with categoryId := Y } ∈ (categoriesRepo.delete db X (some Y)).items) ∧
    (∀ it ∈ db.items, it.categoryId ≠ X →
      it ∈ (categoriesRepo.delete db X (some Y)).items) ∧
    (∀ c ∈ categoriesRepo.list (categoriesRepo.delete db X (some Y)).categories,
      c.id ≠ X) ∧
    (∀ it ∈ (categoriesRepo.delete db X (some Y)).items, it.categoryId ≠ X) := by
  refine ⟨?_, ?_, ?_, ?_⟩
  · intro it hit hx
    rw [delete_items_reassign db X Y hYe]
    simp only [List.mem_map]
    exact ⟨it, hit, by rw [if_pos (by simpa using hx)]⟩
  · intro it hit hx
    rw [delete_items_reassign db X Y hYe]
    simp only [List.mem_map]
    exact ⟨it, hit, by rw [if_neg (by simpa using hx)]⟩
  · intro c hc
    have hc2 : c ∈ (categoriesRepo.delete db X (some Y)).categories :=
      (List.mergeSort_perm _ _).mem_iff.mp hc
    rw [categoriesRepo.delete] at hc2
    simp only [List.mem_filter, Bool.not_eq_eq_eq_not, Bool.not_true,
      beq_eq_false_iff_ne, ne_eq] at hc2
    exact hc2.2
  · intro it hit
    rw [delete_items_reassign db X Y hYe] at hit
    simp only [List.mem_map] at hit
    obtain ⟨src, _, hsrc⟩ := hit
    by_cases hx : src.categoryId = X
    · rw [if_pos (by simpa using hx)] at hsrc
      rw [← hsrc]
      simpa using hXY
    · rw [if_neg (by simpa using hx)] at hsrc
      rw [← hsrc]
      exact hx

/-- Witness for the amended C3 on the one-category, one-item database:
deleting "x" with replacement "y" reassigns the item to "y", removes "x"
from the listed categories, and leaves no item in "x". -/
theorem claim_C3_amended_witness :
    ({ id := "i1", title := "Water plants", categoryId := "y",
       createdAt := "2024-01-02" } : Item)
        ∈ (categoriesRepo.delete dbX "x" (some "y")).items ∧
    (∀ c ∈ categoriesRepo.list (categoriesRepo.delete dbX "x" (some "y")).categories,
      c.id ≠ "x") ∧
    (∀ it ∈ (categoriesRepo.delete dbX "x" (some "y")).items, it.categoryId ≠ "x") :=
  ⟨(claim_C3_amended dbX "x" "y" (by decide) (by decide)).1
      { id := "i1", title := "Water plants", categoryId := "x",
        createdAt := "2024-01-02" } (by decide) rfl,
   (claim_C3_amended dbX "x" "y" (by decide) (by decide)).2.2.1,
   (claim_C3_amended dbX "x" "y" (by decide) (by decide)).2.2.2⟩

/-- One pass of the reorder loop starting at index `n`: with duplicate-free
ids, each listed record ends with `sortOrder = n + position`, the rest are
untouched. -/
theorem reorder_enumFrom_eq (ids : List String) (n : Nat) (cats : List Category)
    (hnd : ids.Nodup) :
    (List.enumFrom n ids).foldl
      (fun acc p =>
        acc.map (fun c => if c.id == p.2 then { c with sortOrder := p.1 } else c))
      cats
    = cats.map (fun c =>
        if c.id ∈ ids then { c with sortOrder := n + ids.indexOf c.id } else c) := by
  induction ids generalizing n cats with
  | nil => simp
  | cons x xs ih =>
    obtain ⟨hx, hxs⟩ := List.nodup_cons.mp hnd
    rw [List.enumFrom_cons, List.foldl_cons, ih (n + 1) _ hxs, List.map_map]
    apply List.map_congr_left
    intro c _
    by_cases hcx : c.id = x
    · simp [hcx, hx, List.indexOf_cons_self]
    · by_cases hcxs : c.id ∈ xs
      · have hne : x ≠ c.id := fun h => hcx h.symm
        simp [hcx, hcxs, List.indexOf_cons_ne xs hne, Nat.succ_eq_add_one]
        try omega
      · simp [hcx, hcxs]

/-- `reorder` in closed form, for duplicate-free id lists. -/
theorem reorder_eq (cats : List Category) (ids : List String) (hnd : ids.Nodup) :
    categoriesRepo.reorder cats ids
      = cats.map (fun c =>
          if c.id ∈ ids then { c with sortOrder := ids.indexOf c.id } else c) := by
  rw [categoriesRepo.reorder, List.enum_eq_enumFrom, reorder_enumFrom_eq ids 0 cats hnd]
  apply List.map_congr_left
  intro c _
  by_cases h : c.id ∈ ids
  · rw [if_pos h, if_pos h]
    simp
  · rw [if_neg h, if_neg h]

/-- In a duplicate-free list, positions are strictly increasing along the
list. -/
theorem nodup_pairwise_indexOf (ids : List String) (hnd : ids.Nodup) :
    ids.Pairwise (fun a b => ids.indexOf a < ids.indexOf b) := by
  induction ids with
  | nil => exact List.Pairwise.nil
  | cons x xs ih =>
    obtain ⟨hx, hxs⟩ := List.nodup_cons.mp hnd
    rw [List.pairwise_cons]
    constructor
    · intro b hb
      have hbx : b ≠ x := fun h => hx (h ▸ hb)
      rw [List.indexOf_cons_self, List.indexOf_cons_ne _ (fun h => hbx h.symm)]
      exact Nat.succ_pos _
    · refine (ih hxs).imp_of_mem ?_
      intro a b ha hb hab
      have hax : a ≠ x := fun h => hx (h ▸ ha)
      have hbx : b ≠ x := fun h => hx (h ▸ hb)
      rw [List.indexOf_cons_ne _ (fun h => hax h.symm),
        List.indexOf_cons_ne _ (fun h => hbx h.symm)]
      exact Nat.succ_lt_succ hab

/-- Claim C4: for a duplicate-free list of category ids ("its positional
index" presumes each id occupies one position) over a store with unique
keys, after `reorder(ids)` every stored category whose id appears in
`ids` has `sortOrder` equal to its positional index in `ids`; ids with no
stored category are skipped without error (every other record is
untouched and the store keeps its size); and a subsequent `list()`
returns those categories in exactly the order of `ids`: the listed
categories whose id is in `ids`, projected to their ids, are exactly
`ids` restricted to the stored ids, in order. -/
theorem claim_C4_reorder_list (db : DBState) (ids : List String)
    (hnd : ids.Nodup) (hcat : (db.categories.map Category.id).Nodup) :
    (∀ c ∈ categoriesRepo.reorder db.categories ids, c.id ∈ ids →
      c.sortOrder = ids.indexOf c.id) ∧
    (∀ c ∈ categoriesRepo.reorder db.categories ids, c.id ∉ ids →
      c ∈ db.categories) ∧
    (categoriesRepo.reorder db.categories ids).length = db.categories.length ∧
    ((categoriesRepo.list (categoriesRepo.reorder db.categories ids)).filter
        (fun c => decide (c.id ∈ ids))).map Category.id
      = ids.filter (fun i => decide (i ∈ db.categories.map Category.id)) := by
  have hre := reorder_eq db.categories ids hnd
  have hco1 : ∀ c ∈ categoriesRepo.reorder db.categories ids, c.id ∈ ids →
      c.sortOrder = ids.indexOf c.id := by
    intro c hc hin
    rw [hre] at hc
    obtain ⟨c0, hc0, heq⟩ := List.mem_map.mp hc
    by_cases h : c0.id ∈ ids
    · rw [if_pos h] at heq
      rw [← heq]
    · rw [if_neg h] at heq
      subst heq
      exact absurd hin h
  have hco2 : ∀ c ∈ categoriesRepo.reorder db.categories ids, c.id ∉ ids →
      c ∈ db.categories := by
    intro c hc hnin
    rw [hre] at hc
    obtain ⟨c0, hc0, heq⟩ := List.mem_map.mp hc
    by_cases h : c0.id ∈ ids
    · rw [if_pos h] at heq
      exfalso
      apply hnin
      rw [← heq]
      exact h
    · rw [if_neg h] at heq
      subst heq
      exact hc0
  refine ⟨hco1, hco2, by rw [hre]; exact List.length_map _ _, ?_⟩
  have hids : (categoriesRepo.reorder db.categories ids).map Category.id
      = db.categories.map Category.id := by
    rw [hre, List.map_map]
    apply List.map_congr_left
    intro c _
    by_cases h : c.id ∈ ids <;> simp [h]
  have hnd' : ((categoriesRepo.reorder db.categories ids).map Category.id).Nodup := by
    rw [hids]
    exact hcat
  have hperm : (categoriesRepo.list (categoriesRepo.reorder db.categories ids)).Perm
      (categoriesRepo.reorder db.categories ids) := List.mergeSort_perm _ _
  have hpw : (categoriesRepo.list (categoriesRepo.reorder db.categories ids)).Pairwise
      (fun a b => catSortLe a b = true) :=
    List.sorted_mergeSort catSortLe_trans catSortLe_total _
  have hPmapnd : ((categoriesRepo.list (categoriesRepo.reorder db.categories ids)).map
      Category.id).Nodup := (hperm.map Category.id).nodup_iff.mpr hnd'
  have hLsub : (((categoriesRepo.list (categoriesRepo.reorder db.categories ids)).filter
        (fun c => decide (c.id ∈ ids))).map Category.id).Sublist
      ((categoriesRepo.list (categoriesRepo.reorder db.categories ids)).map Category.id) :=
    (List.filter_sublist _).map _
  have hLnd : (((categoriesRepo.list (categoriesRepo.reorder db.categories ids)).filter
      (fun c => decide (c.id ∈ ids))).map Category.id).Nodup :=
    List.Nodup.sublist hLsub hPmapnd
  have hRnd : (ids.filter (fun i => decide (i ∈ db.categories.map Category.id))).Nodup :=
    hnd.filter _
  have hmemL : ∀ a, a ∈ ((categoriesRepo.list (categoriesRepo.reorder db.categories ids)).filter
      (fun c => decide (c.id ∈ ids))).map Category.id ↔
      (a ∈ ids ∧ a ∈ db.categories.map Category.id) := by
    intro a
    constructor
    · intro ha
      obtain ⟨c, hcf, hca⟩ := List.mem_map.mp ha
      obtain ⟨hcP, hcp⟩ := List.mem_filter.mp hcf
      refine ⟨by rw [← hca]; exact of_decide_eq_true hcp, ?_⟩
      rw [← hids]
      exact List.mem_map.mpr ⟨c, hperm.mem_iff.mp hcP, hca⟩
    · rintro ⟨ha1, ha2⟩
      have ha3 : a ∈ (categoriesRepo.reorder db.categories ids).map Category.id := by
        rw [hids]
        exact ha2
      obtain ⟨c, hc, hca⟩ := List.mem_map.mp ha3
      refine List.mem_map.mpr ⟨c, List.mem_filter.mpr ⟨hperm.mem_iff.mpr hc, ?_⟩, hca⟩
      exact decide_eq_true (hca ▸ ha1)
  have hmemR : ∀ a, a ∈ ids.filter (fun i => decide (i ∈ db.categories.map Category.id)) ↔
      (a ∈ ids ∧ a ∈ db.categories.map Category.id) := by
    intro a
    simp [List.mem_filter]
  have hLR : (((categoriesRepo.list (categoriesRepo.reorder db.categories ids)).filter
      (fun c => decide (c.id ∈ ids))).map Category.id).Perm
      (ids.filter (fun i => decide (i ∈ db.categories.map Category.id))) :=
    (List.perm_ext_iff_of_nodup hLnd hRnd).mpr
      (fun a => (hmemL a).trans (hmemR a).symm)
  have hpwne : ((categoriesRepo.list (categoriesRepo.reorder db.categories ids)).filter
      (fun c => decide (c.id ∈ ids))).Pairwise (fun a b => a.id ≠ b.id) :=
    List.pairwise_map.mp hLnd
  have hpwle : ((categoriesRepo.list (categoriesRepo.reorder db.categories ids)).filter
      (fun c => decide (c.id ∈ ids))).Pairwise (fun a b => catSortLe a b = true) :=
    List.Pairwise.sublist (List.filter_sublist _) hpw
  have hsortL : ((categoriesRepo.list (categoriesRepo.reorder db.categories ids)).filter
      (fun c => decide (c.id ∈ ids))).Pairwise
      (fun a b => ids.indexOf a.id < ids.indexOf b.id) := by
    refine (hpwle.and hpwne).imp_of_mem ?_
    intro a b ha hb hab
    obtain ⟨hle, hne⟩ := hab
    have haids : a.id ∈ ids := of_decide_eq_true (List.mem_filter.mp ha).2
    have hbids : b.id ∈ ids := of_decide_eq_true (List.mem_filter.mp hb).2
    have hac : a ∈ categoriesRepo.reorder db.categories ids :=
      hperm.mem_iff.mp (List.mem_filter.mp ha).1
    have hbc : b ∈ categoriesRepo.reorder db.categories ids :=
      hperm.mem_iff.mp (List.mem_filter.mp hb).1
    have hsa : a.sortOrder = ids.indexOf a.id := hco1 a hac haids
    have hsb : b.sortOrder = ids.indexOf b.id := hco1 b hbc hbids
    rcases of_decide_eq_true hle with h | ⟨heq, _⟩
    · rw [← hsa, ← hsb]
      exact h
    · exfalso
      apply hne
      refine (List.indexOf_inj haids hbids).mp ?_
      rw [← hsa, ← hsb]
      exact heq
  have hsortLmap : (((categoriesRepo.list (categoriesRepo.reorder db.categories ids)).filter
      (fun c => decide (c.id ∈ ids))).map Category.id).Pairwise
      (fun a b => ids.indexOf a < ids.indexOf b) :=
    List.pairwise_map.mpr hsortL
  have hsortR : (ids.filter (fun i => decide (i ∈ db.categories.map Category.id))).Pairwise
      (fun a b => ids.indexOf a < ids.indexOf b) :=
    List.Pairwise.sublist (List.filter_sublist _) (nodup_pairwise_indexOf ids hnd)
  haveI : IsAntisymm String (fun a b => ids.indexOf a < ids.indexOf b) :=
    ⟨fun a b h1 h2 => absurd (lt_trans h1 h2) (lt_irrefl _)⟩
  exact List.eq_of_perm_of_sorted hLR hsortLmap hsortR

/-- A three-category store ("a", "b", "c" with sortOrders 0, 1, 2). -/
def dbC : DBState :=
  { categories :=
      [{ id := "a", name := "Home", sortOrder := 0,
         createdAt := "2024-01-01T00:00:00Z", color := some "#B91C1C" },
       { id := "b", name := "Car", sortOrder := 1,
         createdAt := "2024-01-01T00:00:00Z", color := some "#9A3412" },
       { id := "c", name := "Health", sortOrder := 2,
         createdAt := "2024-01-01T00:00:00Z", color := some "#92400E" }],
    items := [], logs := [], prefs := none }

/-- Witness for C4: reordering ["c", "a"] over the three-category store
makes a subsequent `list()` return those two categories in exactly that
order. -/
theorem claim_C4_reorder_list_witness :
    ((categoriesRepo.list (categoriesRepo.reorder dbC.categories ["c", "a"])).filter
        (fun c => decide (c.id ∈ ["c", "a"]))).map Category.id
      = ["c", "a"] := by
  have h := claim_C4_reorder_list dbC ["c", "a"] (by decide) (by decide)
  rw [h.2.2.2]
  decide

/- ————————————————————————————————————————————————————————————————
   Home-page sorting: the sortedItems comparator of src/unnamed/part_006
   ———————————————————————————————————————————————————————————————— -/

/-- The data the home-page sort comparator reads from an item: its title
and the date of its last log (`lastLogs[item.id]`), `none` for a
never-done item. -/
structure SortEntry where
  title : String
  last : Option String
deriving DecidableEq

/-- The `recently-done` branch of the comparator: both never done →
alphabetical by title; a never done → after b; b never done → before b;
both done → last-log date descending. -/
def cmpRecentlyDone (a b : SortEntry) : Int :=
  match a.last, b.last with
  | none, none => strCmp a.title b.title
  | none, some _ => 1
  | some _, none => -1
  | some da, some dbb => strCmp dbb da

/-- The `never-done` branch of the comparator: both never done →
alphabetical by title; a never done → first; b never done → first; both
done → last-log date descending. -/
def cmpNeverDone (a b : SortEntry) : Int :=
  match a.last, b.last with
  | none, none => strCmp a.title b.title
  | none, some _ => -1
  | some _, none => 1
  | some da, some dbb => strCmp dbb da

/-- `filtered.sort(comparator)` in `recently-done` mode: a stable sort
consistent with the comparator (ECMAScript `Array.prototype.sort`). -/
def sortRecentlyDone (xs : List SortEntry) : List SortEntry :=
  xs.mergeSort (fun a b => decide (cmpRecentlyDone a b ≤ 0))

/-- `filtered.sort(comparator)` in `never-done` mode. -/
def sortNeverDone (xs : List SortEntry) : List SortEntry :=
  xs.mergeSort (fun a b => decide (cmpNeverDone a b ≤ 0))

theorem cmpRecentlyDone_trans (a b c : SortEntry)
    (h1 : decide (cmpRecentlyDone a b ≤ 0) = true)
    (h2 : decide (cmpRecentlyDone b c ≤ 0) = true) :
    decide (cmpRecentlyDone a c ≤ 0) = true := by
  simp only [decide_eq_true_eq] at h1 h2 ⊢
  rcases ha : a.last with _ | da <;> rcases hb : b.last with _ | dbb <;>
    rcases hc : c.last with _ | dc <;>
    simp only [cmpRecentlyDone, ha, hb, hc] at h1 h2 ⊢ <;>
    first
    | omega
    | exact strCmp_trans h1 h2
    | exact strCmp_trans h2 h1

theorem cmpRecentlyDone_total (a b : SortEntry) :
    (decide (cmpRecentlyDone a b ≤ 0) || decide (cmpRecentlyDone b a ≤ 0)) = true := by
  simp only [Bool.or_eq_true, decide_eq_true_eq]
  rcases ha : a.last with _ | da <;> rcases hb : b.last with _ | dbb <;>
    simp only [cmpRecentlyDone, ha, hb] <;>
    first
    | omega
    | exact strCmp_total a.title b.title
    | exact strCmp_total dbb da

theorem cmpNeverDone_trans (a b c : SortEntry)
    (h1 : decide (cmpNeverDone a b ≤ 0) = true)
    (h2 : decide (cmpNeverDone b c ≤ 0) = true) :
    decide (cmpNeverDone a c ≤ 0) = true := by
  simp only [decide_eq_true_eq] at h1 h2 ⊢
  rcases ha : a.last with _ | da <;> rcases hb : b.last with _ | dbb <;>
    rcases hc : c.last with _ | dc <;>
    simp only [cmpNeverDone, ha, hb, hc] at h1 h2 ⊢ <;>
    first
    | omega
    | exact strCmp_trans h1 h2
    | exact strCmp_trans h2 h1

theorem cmpNeverDone_total (a b : SortEntry) :
    (decide (cmpNeverDone a b ≤ 0) || decide (cmpNeverDone b a ≤ 0)) = true := by
  simp only [Bool.or_eq_true, decide_eq_true_eq]
  rcases ha : a.last with _ | da <;> rcases hb : b.last with _ | dbb <;>
    simp only [cmpNeverDone, ha, hb] <;>
    first
    | omega
    | exact strCmp_total a.title b.title
    | exact strCmp_total dbb da

/-- Claim C1: sorting a snapshot of items with their optional last-log
dates in `recently-done` mode yields a permutation in which every item
with a log precedes every item without one (no never-done item ever
precedes a logged one), the items with logs appear in last-log-date
descending order (string comparison), and the items without logs appear
in title-ascending order; in `never-done` mode the groups are swapped:
the items without logs come first, title-ascending among themselves,
followed by the items with logs in last-log-date descending order. -/
theorem claim_C1_sort_modes (xs : List SortEntry) :
    (sortRecentlyDone xs).Perm xs ∧
    (sortRecentlyDone xs).Pairwise (fun a b => a.last = none → b.last = none) ∧
    ((sortRecentlyDone xs).filter (fun e => e.last.isSome)).Pairwise
      (fun a b => strCmp (b.last.getD "") (a.last.getD "") ≤ 0) ∧
    ((sortRecentlyDone xs).filter (fun e => e.last.isNone)).Pairwise
      (fun a b => strCmp a.title b.title ≤ 0) ∧
    (sortNeverDone xs).Perm xs ∧
    (sortNeverDone xs).Pairwise (fun a b => b.last = none → a.last = none) ∧
    ((sortNeverDone xs).filter (fun e => e.last.isNone)).Pairwise
      (fun a b => strCmp a.title b.title ≤ 0) ∧
    ((sortNeverDone xs).filter (fun e => e.last.isSome)).Pairwise
      (fun a b => strCmp (b.last.getD "") (a.last.getD "") ≤ 0) := by
  have hpwR : (sortRecentlyDone xs).Pairwise (fun a b => cmpRecentlyDone a b ≤ 0) :=
    (List.sorted_mergeSort cmpRecentlyDone_trans cmpRecentlyDone_total xs).imp
      (fun h => of_decide_eq_true h)
  have hpwN : (sortNeverDone xs).Pairwise (fun a b => cmpNeverDone a b ≤ 0) :=
    (List.sorted_mergeSort cmpNeverDone_trans cmpNeverDone_total xs).imp
      (fun h => of_decide_eq_true h)
  refine ⟨List.mergeSort_perm xs _, ?_, ?_, ?_, List.mergeSort_perm xs _, ?_, ?_, ?_⟩
  · refine hpwR.imp ?_
    intro a b h ha
    rcases hb : b.last with _ | dbb
    · rfl
    · exfalso
      simp only [cmpRecentlyDone, ha, hb] at h
      omega
  · refine (List.Pairwise.sublist (List.filter_sublist _) hpwR).imp_of_mem ?_
    intro a b ha hb h
    have ha2 := (List.mem_filter.mp ha).2
    have hb2 := (List.mem_filter.mp hb).2
    rcases haa : a.last with _ | da
    · rw [haa] at ha2
      simp at ha2
    · rcases hbb : b.last with _ | dbb
      · rw [hbb] at hb2
        simp at hb2
      · simp only [cmpRecentlyDone, haa, hbb] at h
        simpa using h
  · refine (List.Pairwise.sublist (List.filter_sublist _) hpwR).imp_of_mem ?_
    intro a b ha hb h
    have ha2 := (List.mem_filter.mp ha).2
    have hb2 := (List.mem_filter.mp hb).2
    rcases haa : a.last with _ | da
    · rcases hbb : b.last with _ | dbb
      · simpa only [cmpRecentlyDone, haa, hbb] using h
      · rw [hbb] at hb2
        simp at hb2
    · rw [haa] at ha2
      simp at ha2
  · refine hpwN.imp ?_
    intro a b h hb
    rcases ha : a.last with _ | da
    · rfl
    · exfalso
      simp only [cmpNeverDone, ha, hb] at h
      omega
  · refine (List.Pairwise.sublist (List.filter_sublist _) hpwN).imp_of_mem ?_
    intro a b ha hb h
    have ha2 := (List.mem_filter.mp ha).2
    have hb2 := (List.mem_filter.mp hb).2
    rcases haa : a.last with _ | da
    · rcases hbb : b.last with _ | dbb
      · simpa only [cmpNeverDone, haa, hbb] using h
      · rw [hbb] at hb2
        simp at hb2
    · rw [haa] at ha2
      simp at ha2
  · refine (List.Pairwise.sublist (List.filter_sublist _) hpwN).imp_of_mem ?_
    intro a b ha hb h
    have ha2 := (List.mem_filter.mp ha).2
    have hb2 := (List.mem_filter.mp hb).2
    rcases haa : a.last with _ | da
    · rw [haa] at ha2
      simp at ha2
    · rcases hbb : b.last with _ | dbb
      · rw [hbb] at hb2
        simp at hb2
      · simp only [cmpNeverDone, haa, hbb] at h
        simpa using h
